import Mathlib

/-!
# BitmaskIterator

A shallow embedding of `src/BitmaskIterator.h`: the class template
`BitmaskIterator<T>` and its nested `iterator`, for an unsigned integer type
`T` of `W` bits (`W = sizeof(T) * 8`).

Values of `T` are natural numbers below `2 ^ W`; every conversion to `T` is an
explicit reduction modulo `2 ^ W`.  The literal `1` in `1 << bit` has type
`int`, which is taken to be 32 bits wide (`intBits`); values of `int` are
represented by their two's-complement bit pattern, a natural number below
`2 ^ intBits`.

A shift of an `int` by `intBits` or more has no result defined by the C++
standard, but the compiled code computes one and goes on.  Which `int` it
computes depends on the platform, so the embedding takes it as a parameter
`u : Nat → Nat`, the bit pattern computed for each out-of-range shift count.
A theorem stated for every `u` holds whatever the platform computes;
`shl_mod32` is the result on the common platforms.
-/

namespace BitmaskIt

/-- What stops an evaluation from delivering a value. -/
inductive Fault where
  /-- The iteration bound given to a loop was used up before the loop ended. -/
  | outOfFuel
  deriving DecidableEq, Repr

/-- Width in bits of the type `int`, the type of the literal `1`. -/
def intBits : Nat := 32

/-- Conversion of an unsigned value to the `W`-bit type `T`. -/
def toT (W x : Nat) : Nat := x % 2 ^ W

/-- Line 18, `static inline constexpr T max_bit = sizeof(T) * 8;` with
`W = sizeof(T) * 8`, stored in a `T`. -/
def max_bit (W : Nat) : Nat := toT W W

/-- Whether the C++ standard defines the result of `1 << bit` on `int`: the
shift count has to be below the width of `int`. -/
def shift_defined (bit : Nat) : Bool := decide (bit < intBits)

/-- The subexpression `1 << bit` of line 70.  The left operand is the `int`
literal `1`, so the result has type `int` whatever `T` is.  For
`bit < intBits - 1` the value is `2 ^ bit`; for `bit = intBits - 1` it is the
least `int` (bit pattern `2 ^ (intBits - 1)`); for `bit ≥ intBits` the result
is the `int` the platform computes, `u bit`. -/
def shl_one (u : Nat → Nat) (bit : Nat) : Nat :=
  if bit < intBits then 2 ^ bit % 2 ^ intBits else u bit % 2 ^ intBits

/-- The out-of-range shift on the common platforms: the shift instructions of
x86-64 and AArch64 take the count of a 32-bit shift modulo 32. -/
def shl_mod32 (bit : Nat) : Nat := 2 ^ (bit % intBits)

/-- Conversion of an `int`, given by its bit pattern `p`, to the type in which
`mask & (1 << bit)` is evaluated.  That type is `int` itself when `T` is
narrower than `int` (then `mask` is promoted to `int`), and `T` otherwise; its
width is `max W intBits`.  A negative `int` is sign-extended. -/
def widen (W p : Nat) : Nat :=
  if p < 2 ^ (intBits - 1) then p else p + (2 ^ (max W intBits) - 2 ^ intBits)

/-- Lines 68-71, `iterator::is_bit_set`:
`return (mask & (1 << bit)) != 0;`. -/
def is_bit_set (u : Nat → Nat) (W mask bit : Nat) : Bool :=
  (mask &&& widen W (shl_one u bit)) != 0

/-- The nested `struct iterator`: its two data members (lines 65-66). -/
structure iterator where
  m_mask : Nat
  m_bit : Nat
  deriving DecidableEq, Repr

/-- The outer class `BitmaskIterator<T>`: its two data members
(lines 16-17). -/
structure BitmaskIterator where
  m_mask : Nat
  m_bit : Nat
  deriving DecidableEq, Repr

/-- The `while` loop of `iterator::find_next` (lines 75-82) on the cursor
`m_bit`, run for at most `fuel` iterations:
`while (m_bit < max_bit) { m_bit++; if (is_bit_set(m_mask, m_bit)) break; }`. -/
def find_next_loop (u : Nat → Nat) (W mask : Nat) :
    Nat → Nat → Except Fault Nat
  | 0, bit => if bit < max_bit W then .error .outOfFuel else .ok bit
  | fuel + 1, bit =>
    if bit < max_bit W then
      match is_bit_set u W mask (toT W (bit + 1)) with
      | true => .ok (toT W (bit + 1))
      | false => find_next_loop u W mask fuel (toT W (bit + 1))
    else .ok bit

/-- Lines 73-84, `iterator::find_next`.  The loop increments the cursor in
every iteration and stops once it is `max_bit`, so `max_bit` iterations are
allowed for. -/
def find_next (u : Nat → Nat) (W : Nat) (it : iterator) :
    Except Fault iterator :=
  match find_next_loop u W it.m_mask (max_bit W) it.m_bit with
  | .error f => .error f
  | .ok b => .ok ⟨it.m_mask, b⟩

/-- Lines 29-35, the constructor `iterator(uint64_t mask, uint64_t start_bit)`:
both arguments are converted to `T`, then the start position is tested and,
when its bit is not set, `find_next` is called. -/
def iterator.ctor (u : Nat → Nat) (W mask start_bit : Nat) :
    Except Fault iterator :=
  match is_bit_set u W (toT W mask) (toT W start_bit) with
  | true => .ok ⟨toT W mask, toT W start_bit⟩
  | false => find_next u W ⟨toT W mask, toT W start_bit⟩

/-- Lines 37-40, `operator*`. -/
def iterator.deref (it : iterator) : Nat := it.m_bit

/-- Lines 42-45, pre-increment `operator++()`. -/
def iterator.pre_inc (u : Nat → Nat) (W : Nat) (it : iterator) :
    Except Fault iterator :=
  find_next u W it

/-- Lines 47-52, post-increment `operator++(int)`: the returned snapshot and
the iterator after the call. -/
def iterator.post_inc (u : Nat → Nat) (W : Nat) (it : iterator) :
    Except Fault (iterator × iterator) :=
  match find_next u W it with
  | .error f => .error f
  | .ok it' => .ok (it, it')

/-- Lines 54-57, `operator==`. -/
def iterator.eq (a b : iterator) : Bool := a.m_bit == b.m_bit

/-- Lines 59-62, `operator!=`. -/
def iterator.ne (a b : iterator) : Bool := a.m_bit != b.m_bit

/-- Lines 87-90, the constructor `BitmaskIterator(T mask, T start_bit = 0)`;
the arguments are values of `T`. -/
def BitmaskIterator.ctor (mask : Nat) (start_bit : Nat := 0) :
    BitmaskIterator :=
  ⟨mask, start_bit⟩

/-- Lines 92-95, `begin()`. -/
def BitmaskIterator.begin (u : Nat → Nat) (W : Nat) (B : BitmaskIterator) :
    Except Fault iterator :=
  iterator.ctor u W B.m_mask B.m_bit

/-- Lines 97-100, `end()`. -/
def BitmaskIterator.end_ (u : Nat → Nat) (W : Nat) (B : BitmaskIterator) :
    Except Fault iterator :=
  iterator.ctor u W B.m_mask (max_bit W)

/-- The traversal `for (it = begin; it != last; ++it) body(*it)` by which a
caller reads the sequence, run for at most `n` executions of the body.  The
result is the list of values `*it` handed to the body and whether the loop has
ended (`it == last`) after them. -/
def traverse (u : Nat → Nat) (W : Nat) (last : iterator) :
    Nat → iterator → Except Fault (List Nat × Bool)
  | 0, it => .ok ([], it.eq last)
  | n + 1, it =>
    if it.ne last then
      match it.pre_inc u W with
      | .error f => .error f
      | .ok it' =>
        match traverse u W last n it' with
        | .error f => .error f
        | .ok r => .ok (it.deref :: r.1, r.2)
    else .ok ([], true)

/-- The sequence read from `B`: `begin()` and `end()` are evaluated and the
traversal is run from the one to the other, for at most `n` executions of the
loop body. -/
def produced (u : Nat → Nat) (W n : Nat) (B : BitmaskIterator) :
    Except Fault (List Nat × Bool) :=
  match B.begin u W with
  | .error f => .error f
  | .ok b =>
    match B.end_ u W with
    | .error f => .error f
    | .ok e => traverse u W e n b

/-- The number of 1-bits among the `W` bits of `m`. -/
def popcount (W m : Nat) : Nat :=
  ((List.range W).filter (fun i => m.testBit i)).length

/-- The ascending list of the indices from `s` on and below `W` whose bit is
set in `m`. -/
def setBitsFrom (W m s : Nat) : List Nat :=
  (List.range W).filter (fun i => decide (s ≤ i) && m.testBit i)

/-- Index `j` is where a scan of `m` that starts just above `c` stops: the
least index above `c` and below `W` whose bit is set in `m`, or `W` when no
bit of `m` is set there. -/
def IsNextSet (W m c j : Nat) : Prop :=
  c < j ∧ j ≤ W ∧ (j < W → m.testBit j = true) ∧
    ∀ k < j, c < k → m.testBit k = false

/-- Index `j` is where a scan of `m` that starts at `s` itself stops: the
least index from `s` on and below `W` whose bit is set in `m`, or `W` when no
bit of `m` is set there. -/
def IsFirstSet (W m s j : Nat) : Prop :=
  s ≤ j ∧ j ≤ W ∧ (j < W → m.testBit j = true) ∧
    ∀ k < j, s ≤ k → m.testBit k = false

instance (W m c j : Nat) : Decidable (IsNextSet W m c j) := by
  unfold IsNextSet
  infer_instance

instance (W m s j : Nat) : Decidable (IsFirstSet W m s j) := by
  unfold IsFirstSet
  infer_instance

/-- Pre-increment `operator++` applied `n` times in a row. -/
def advance (u : Nat → Nat) (W : Nat) : Nat → iterator → Except Fault iterator
  | 0, it => .ok it
  | n + 1, it =>
    match it.pre_inc u W with
    | .error f => .error f
    | .ok it' => advance u W n it'

/-- The loop of `find_next` (lines 75-82) with a record of its work: the
indices handed to `is_bit_set`, in order, next to the outcome of the loop.
Every iteration of the body increments the cursor once and tests the new
cursor once, so the length of the record is the number of iterations of the
body and of increments of the cursor. -/
def find_next_loop_log (u : Nat → Nat) (W mask : Nat) :
    Nat → Nat → List Nat × Except Fault Nat
  | 0, bit => ([], if bit < max_bit W then .error .outOfFuel else .ok bit)
  | fuel + 1, bit =>
    if bit < max_bit W then
      match is_bit_set u W mask (toT W (bit + 1)) with
      | true => ([toT W (bit + 1)], .ok (toT W (bit + 1)))
      | false =>
        (toT W (bit + 1) ::
            (find_next_loop_log u W mask fuel (toT W (bit + 1))).1,
          (find_next_loop_log u W mask fuel (toT W (bit + 1))).2)
    else ([], .ok bit)

/-- Lines 73-84, `find_next`, with the record of the indices it tests. -/
def find_next_log (u : Nat → Nat) (W : Nat) (it : iterator) :
    List Nat × Except Fault iterator :=
  ((find_next_loop_log u W it.m_mask (max_bit W) it.m_bit).1,
    match (find_next_loop_log u W it.m_mask (max_bit W) it.m_bit).2 with
    | .error f => .error f
    | .ok b => .ok ⟨it.m_mask, b⟩)

/-- Lines 29-35, the constructor of `iterator`, with the record of the indices
it tests: the start position first, then those of `find_next` when it is
called. -/
def iterator.ctor_log (u : Nat → Nat) (W mask start_bit : Nat) :
    List Nat × Except Fault iterator :=
  match is_bit_set u W (toT W mask) (toT W start_bit) with
  | true => ([toT W start_bit], .ok ⟨toT W mask, toT W start_bit⟩)
  | false =>
    (toT W start_bit :: (find_next_log u W ⟨toT W mask, toT W start_bit⟩).1,
      (find_next_log u W ⟨toT W mask, toT W start_bit⟩).2)

/-- Pre-increment applied `n` times in a row, with the record of the indices
tested by all the calls together. -/
def advance_log (u : Nat → Nat) (W : Nat) :
    Nat → iterator → List Nat × Except Fault iterator
  | 0, it => ([], .ok it)
  | n + 1, it =>
    match (find_next_log u W it).2 with
    | .error f => ((find_next_log u W it).1, .error f)
    | .ok it' =>
      ((find_next_log u W it).1 ++ (advance_log u W n it').1,
        (advance_log u W n it').2)

/-- The cursor of the iterator an evaluation delivers. -/
def cursorOf (r : Except Fault iterator) : Except Fault Nat :=
  match r with
  | .error f => .error f
  | .ok it => .ok it.m_bit

/-- A call of `begin()` on the object `B`: the value returned and the object
after the call.  The body (line 94) assigns to no data member. -/
def BitmaskIterator.begin_call (u : Nat → Nat) (W : Nat)
    (B : BitmaskIterator) : Except Fault iterator × BitmaskIterator :=
  (B.begin u W, B)

/-- A call of `end()` on the object `B`: the value returned and the object
after the call.  The body (line 99) assigns to no data member. -/
def BitmaskIterator.end_call (u : Nat → Nat) (W : Nat)
    (B : BitmaskIterator) : Except Fault iterator × BitmaskIterator :=
  (B.end_ u W, B)

/-! ## Arithmetic of the bit test -/

theorem max_bit_eq (W : Nat) : max_bit W = W := by
  unfold max_bit toT
  exact Nat.mod_eq_of_lt (Nat.lt_two_pow W)

theorem toT_of_le {W x : Nat} (h : x ≤ W) : toT W x = x := by
  unfold toT
  exact Nat.mod_eq_of_lt (lt_of_le_of_lt h (Nat.lt_two_pow W))

theorem toT_lt (W x : Nat) : toT W x < 2 ^ W := by
  unfold toT
  exact Nat.mod_lt _ (Nat.two_pow_pos W)

theorem testBit_toT {W i : Nat} (m : Nat) (h : i < W) :
    (toT W m).testBit i = m.testBit i := by
  unfold toT
  simp [Nat.testBit_mod_two_pow, h]

theorem and_two_pow_ne_zero (m b : Nat) :
    ((m &&& 2 ^ b) != 0) = m.testBit b := by
  cases h : m.testBit b with
  | false =>
    have hz : m &&& 2 ^ b = 0 := by
      apply Nat.eq_of_testBit_eq
      intro i
      by_cases hi : b = i
      · subst hi
        simp [Nat.testBit_and, h]
      · simp [Nat.testBit_and, Nat.testBit_two_pow, hi]
    simp [hz]
  | true =>
    have hb : (m &&& 2 ^ b).testBit b = true := by
      simp [Nat.testBit_and, h, Nat.testBit_two_pow_self]
    have hne : m &&& 2 ^ b ≠ 0 := by
      intro h0
      rw [h0] at hb
      simp at hb
    simpa using hne

/-- For a shift count below the width of `int` the shift is the defined one,
whatever the platform. -/
theorem shl_one_of_lt (u : Nat → Nat) {b : Nat} (hb : b < intBits) :
    shl_one u b = 2 ^ b := by
  unfold shl_one
  rw [if_pos hb]
  exact Nat.mod_eq_of_lt (Nat.pow_lt_pow_right (by decide) hb)

/-- With `T` no wider than `int`, the test of a bit below the width of `int`
reads exactly that bit of the mask. -/
theorem is_bit_set_eq (u : Nat → Nat) {W b : Nat} (m : Nat)
    (hW : W ≤ intBits) (hb : b < intBits) :
    is_bit_set u W m b = m.testBit b := by
  have hw : widen W (2 ^ b) = 2 ^ b := by
    unfold widen
    rw [Nat.max_eq_right hW]
    split <;> simp
  unfold is_bit_set
  rw [shl_one_of_lt u hb, hw, and_two_pow_ne_zero]

/-- The test of an index below the width of `int` has the same outcome on
every platform. -/
theorem is_bit_set_indep (u u' : Nat → Nat) (W m : Nat) {b : Nat}
    (hb : b < intBits) : is_bit_set u W m b = is_bit_set u' W m b := by
  unfold is_bit_set
  rw [shl_one_of_lt u hb, shl_one_of_lt u' hb]

/-- No test of the mask 0 succeeds, whatever the shift yields. -/
theorem is_bit_set_zero (u : Nat → Nat) (W b : Nat) :
    is_bit_set u W 0 b = false := by
  unfold is_bit_set
  simp

/-! ## The scan loop -/

/-- Whatever the width and the platform, a run of the loop that delivers a
cursor has moved a live cursor strictly upwards and not beyond `W`, and has
left alone a cursor that is `W` or more. -/
theorem find_next_loop_mono (u : Nat → Nat) (W m : Nat) :
    ∀ (fuel c j : Nat), find_next_loop u W m fuel c = .ok j →
      (c < W → c < j ∧ j ≤ W) ∧ (W ≤ c → j = c) := by
  intro fuel
  induction fuel with
  | zero =>
    intro c j h
    simp only [find_next_loop, max_bit_eq] at h
    split at h
    · cases h
    · rename_i hc
      injection h with h
      exact ⟨fun hlt => absurd hlt hc, fun _ => h.symm⟩
  | succ fuel ih =>
    intro c j h
    simp only [find_next_loop, max_bit_eq] at h
    split at h
    · rename_i hc
      have hT : toT W (c + 1) = c + 1 := toT_of_le hc
      rw [hT] at h
      refine ⟨fun _ => ?_, fun hle => absurd hc (Nat.not_lt.mpr hle)⟩
      split at h
      · injection h with h
        omega
      · obtain ⟨h1, h2⟩ := ih (c + 1) j h
        by_cases hc1 : c + 1 < W
        · have := h1 hc1
          omega
        · have := h2 (Nat.not_lt.mp hc1)
          omega
    · rename_i hc
      injection h with h
      exact ⟨fun hlt => absurd hlt hc, fun _ => h.symm⟩

/-- Whatever the width and the platform, the loop ends within `W - c`
iterations and delivers a cursor. -/
theorem find_next_loop_ok (u : Nat → Nat) (W m : Nat) :
    ∀ (fuel c : Nat), W - c ≤ fuel →
      ∃ j, find_next_loop u W m fuel c = .ok j := by
  intro fuel
  induction fuel with
  | zero =>
    intro c hf
    refine ⟨c, ?_⟩
    simp only [find_next_loop, max_bit_eq]
    rw [if_neg (by omega)]
  | succ fuel ih =>
    intro c hf
    simp only [find_next_loop, max_bit_eq]
    by_cases hc : c < W
    · have hT : toT W (c + 1) = c + 1 := toT_of_le hc
      rw [if_pos hc, hT]
      cases hbit : is_bit_set u W m (c + 1) with
      | true => exact ⟨c + 1, rfl⟩
      | false => exact ih (c + 1) (by omega)
    · rw [if_neg hc]
      exact ⟨c, rfl⟩

theorem find_next_loop_terminal (u : Nat → Nat) (W m : Nat) {c : Nat}
    (hc : W ≤ c) : ∀ fuel : Nat, find_next_loop u W m fuel c = .ok c := by
  intro fuel
  cases fuel <;> simp [find_next_loop, max_bit_eq, Nat.not_lt.mpr hc]

/-- With `T` no wider than `int`, a run of the loop from a live cursor that
delivers a cursor delivers the next set position, or `W`, whatever the
platform. -/
theorem find_next_loop_spec (u : Nat → Nat) {W : Nat} (m : Nat)
    (hW : W ≤ intBits) :
    ∀ (fuel c j : Nat), find_next_loop u W m fuel c = .ok j → c < W →
      IsNextSet W m c j := by
  intro fuel
  induction fuel with
  | zero =>
    intro c j h hc
    simp only [find_next_loop, max_bit_eq, if_pos hc] at h
    cases h
  | succ fuel ih =>
    intro c j h hc
    have hmono := (find_next_loop_mono u W m (fuel + 1) c j h).1 hc
    simp only [find_next_loop, max_bit_eq, if_pos hc] at h
    have hT : toT W (c + 1) = c + 1 := toT_of_le hc
    rw [hT] at h
    by_cases hc1 : c + 1 < W
    · rw [is_bit_set_eq u m hW (lt_of_lt_of_le hc1 hW)] at h
      cases hbit : m.testBit (c + 1) with
      | true =>
        simp only [hbit] at h
        injection h with h
        subst h
        exact ⟨Nat.lt_succ_self c, hc, fun _ => hbit, fun k hk hck => by omega⟩
      | false =>
        simp only [hbit] at h
        obtain ⟨a1, a2, a3, a4⟩ := ih (c + 1) j h hc1
        refine ⟨by omega, a2, a3, fun k hk hck => ?_⟩
        by_cases hk1 : k = c + 1
        · rw [hk1]; exact hbit
        · exact a4 k hk (by omega)
    · have hj : j = W := by omega
      subst hj
      exact ⟨hc, Nat.le_refl _, fun hlt => absurd hlt (Nat.lt_irrefl _),
        fun k hk hck => by omega⟩

/-- A run of the loop that delivers a cursor below the width of `int` has
tested only indices below that width, and delivers the same cursor on every
platform. -/
theorem find_next_loop_indep (u u' : Nat → Nat) (W m : Nat) :
    ∀ (fuel c j : Nat), find_next_loop u W m fuel c = .ok j → j < intBits →
      find_next_loop u' W m fuel c = .ok j := by
  intro fuel
  induction fuel with
  | zero =>
    intro c j h _
    simpa only [find_next_loop] using h
  | succ fuel ih =>
    intro c j h hj
    have hmono := find_next_loop_mono u W m (fuel + 1) c j h
    simp only [find_next_loop, max_bit_eq] at h ⊢
    by_cases hc : c < W
    · have hT : toT W (c + 1) = c + 1 := toT_of_le hc
      rw [if_pos hc, hT] at h ⊢
      have hlt : c + 1 < intBits := by
        have := hmono.1 hc
        omega
      rw [← is_bit_set_indep u u' W m hlt]
      cases hbit : is_bit_set u W m (c + 1) with
      | true =>
        simp only [hbit] at h
        exact h
      | false =>
        simp only [hbit] at h
        exact ih (c + 1) j h hj
    · rw [if_neg hc] at h ⊢
      exact h

/-! ## `find_next`, the constructor, `begin()` and `end()` -/

/-- An iterator whose cursor is `W` or more is left as it is by
`find_next`, whatever the width and the mask: the loop body is not entered and
no bit is tested. -/
theorem find_next_terminal (u : Nat → Nat) (W m : Nat) {c : Nat}
    (hc : W ≤ c) : find_next u W ⟨m, c⟩ = .ok ⟨m, c⟩ := by
  unfold find_next
  simp only [find_next_loop_terminal u W m hc]

/-- Whatever the width and the platform, `find_next` delivers an iterator
over the same mask; a live cursor has moved strictly upwards and not beyond
`W`, a cursor that is `W` or more has stayed. -/
theorem find_next_total (u : Nat → Nat) (W m c : Nat) :
    ∃ j, find_next u W ⟨m, c⟩ = .ok ⟨m, j⟩ ∧
      (c < W → c < j ∧ j ≤ W) ∧ (W ≤ c → j = c) := by
  obtain ⟨j, hj⟩ := find_next_loop_ok u W m (max_bit W) c
    (by rw [max_bit_eq]; omega)
  refine ⟨j, ?_, find_next_loop_mono u W m _ c j hj⟩
  unfold find_next
  simp only [hj]

/-- With `T` no wider than `int`, `find_next` from a live cursor delivers the
iterator whose cursor is the next set position, or `W`, whatever the
platform. -/
theorem find_next_spec (u : Nat → Nat) {W : Nat} (m : Nat) {c : Nat}
    (hW : W ≤ intBits) (hc : c < W) :
    ∃ j, find_next u W ⟨m, c⟩ = .ok ⟨m, j⟩ ∧ IsNextSet W m c j := by
  obtain ⟨j, hj⟩ := find_next_loop_ok u W m (max_bit W) c
    (by rw [max_bit_eq]; omega)
  refine ⟨j, ?_, find_next_loop_spec u m hW _ c j hj hc⟩
  unfold find_next
  simp only [hj]

/-- A call of `find_next` that delivers a cursor below the width of `int`
delivers the same iterator on every platform. -/
theorem find_next_indep (u u' : Nat → Nat) (W : Nat) {it it' : iterator}
    (h : find_next u W it = .ok it') (hlt : it'.m_bit < intBits) :
    find_next u' W it = .ok it' := by
  unfold find_next at h ⊢
  split at h
  · cases h
  · rename_i j hj
    injection h with h
    subst h
    simp only [find_next_loop_indep u u' W it.m_mask _ _ j hj hlt]

theorem testBit_toT_width (W m : Nat) : (toT W m).testBit W = false :=
  Nat.testBit_lt_two_pow (toT_lt W m)

theorem IsNextSet_toT {W m c j : Nat} (h : IsNextSet W (toT W m) c j) :
    IsNextSet W m c j := by
  obtain ⟨h1, h2, h3, h4⟩ := h
  refine ⟨h1, h2, fun hj => ?_, fun k hk hck => ?_⟩
  · rw [← testBit_toT m hj]; exact h3 hj
  · rw [← testBit_toT m (lt_of_lt_of_le hk h2)]; exact h4 k hk hck

/-- Whatever the width, the mask, the start offset and the platform, `end()`
is the iterator over the mask with cursor `W`: the constructor tests index
`W`, and both outcomes of the test leave the cursor at `W`. -/
theorem end_eq (u : Nat → Nat) (W m s : Nat) :
    BitmaskIterator.end_ u W ⟨m, s⟩ = .ok ⟨toT W m, W⟩ := by
  unfold BitmaskIterator.end_ iterator.ctor
  simp only [max_bit_eq, toT_of_le (Nat.le_refl W)]
  cases is_bit_set u W (toT W m) W with
  | true => rfl
  | false => exact find_next_terminal u W (toT W m) (Nat.le_refl W)

/-- Whatever the width, an `end()` has cursor `W`. -/
theorem end_cursor {u : Nat → Nat} {W : Nat} {B : BitmaskIterator}
    {e : iterator} (h : B.end_ u W = .ok e) : e.m_bit = W := by
  rw [end_eq u W B.m_mask B.m_bit] at h
  injection h with h
  rw [← h]

/-- Whatever the width and the platform, with a start offset `s` of at most
`W`, `begin()` is an iterator over the mask whose cursor lies between `s` and
`W`, and is `s` when the test of index `s` succeeds. -/
theorem begin_bounds (u : Nat → Nat) (W m : Nat) {s : Nat} (hs : s ≤ W) :
    ∃ j, BitmaskIterator.begin u W ⟨m, s⟩ = .ok ⟨toT W m, j⟩ ∧
      s ≤ j ∧ j ≤ W ∧ (is_bit_set u W (toT W m) s = true → j = s) := by
  unfold BitmaskIterator.begin iterator.ctor
  simp only [toT_of_le hs]
  cases hbit : is_bit_set u W (toT W m) s with
  | true => exact ⟨s, rfl, Nat.le_refl s, hs, fun _ => rfl⟩
  | false =>
    obtain ⟨j, hj, h1, h2⟩ := find_next_total u W (toT W m) s
    refine ⟨j, hj, ?_, ?_, fun h => by cases h⟩
    · by_cases hlt : s < W
      · exact Nat.le_of_lt (h1 hlt).1
      · exact Nat.le_of_eq (h2 (Nat.not_lt.mp hlt)).symm
    · by_cases hlt : s < W
      · exact (h1 hlt).2
      · rw [h2 (Nat.not_lt.mp hlt)]; exact hs

/-- With `T` no wider than `int` and a start offset of at most `W`,
`begin()` is the iterator over the mask whose cursor is the first set position
from the start offset on, or `W`, whatever the platform. -/
theorem begin_spec (u : Nat → Nat) {W : Nat} (m : Nat) {s : Nat}
    (hW : W ≤ intBits) (hs : s ≤ W) :
    ∃ j, BitmaskIterator.begin u W ⟨m, s⟩ = .ok ⟨toT W m, j⟩ ∧
      IsFirstSet W m s j := by
  rcases Nat.lt_or_ge s W with hlt | hge
  · unfold BitmaskIterator.begin iterator.ctor
    simp only [toT_of_le hs, is_bit_set_eq u (toT W m) hW (lt_of_lt_of_le hlt hW),
      testBit_toT m hlt]
    cases hbit : m.testBit s with
    | true =>
      exact ⟨s, rfl, Nat.le_refl s, hs, fun _ => hbit, fun k hk hsk => by omega⟩
    | false =>
      obtain ⟨j, hj, hn⟩ := find_next_spec u (toT W m) hW hlt
      obtain ⟨h1, h2, h3, h4⟩ := IsNextSet_toT hn
      refine ⟨j, hj, Nat.le_of_lt h1, h2, h3, fun k hk hsk => ?_⟩
      by_cases hks : k = s
      · rw [hks]; exact hbit
      · exact h4 k hk (by omega)
  · obtain ⟨j, hj, h1, h2, _⟩ := begin_bounds u W m hs
    have hjW : j = W := by omega
    subst hjW
    exact ⟨j, hj, h1, Nat.le_refl j, fun h => absurd h (Nat.lt_irrefl j),
      fun k hk hsk => by omega⟩

/-- A constructor call that delivers a cursor below the width of `int` has
tested only indices below that width, and delivers the same iterator on every
platform. -/
theorem ctor_indep (u u' : Nat → Nat) (W m s : Nat) {it : iterator}
    (h : iterator.ctor u W m s = .ok it) (hlt : it.m_bit < intBits) :
    iterator.ctor u' W m s = .ok it := by
  unfold iterator.ctor at h ⊢
  have hstart : toT W s ≤ it.m_bit := by
    split at h
    · injection h with h
      rw [← h]
    · obtain ⟨j, hj, h1, h2⟩ := find_next_total u W (toT W m) (toT W s)
      rw [hj] at h
      injection h with h
      rw [← h]
      by_cases hc : toT W s < W
      · exact Nat.le_of_lt (h1 hc).1
      · exact Nat.le_of_eq (h2 (Nat.not_lt.mp hc)).symm
  rw [← is_bit_set_indep u u' W (toT W m) (lt_of_le_of_lt hstart hlt)]
  cases hbit : is_bit_set u W (toT W m) (toT W s) with
  | true =>
    simp only [hbit] at h
    exact h
  | false =>
    simp only [hbit] at h
    exact find_next_indep u u' W h hlt

/-! ## The traversal -/

theorem traverse_at_end (u : Nat → Nat) (W M M' c : Nat) :
    ∀ n : Nat, traverse u W ⟨M', c⟩ n ⟨M, c⟩ = .ok ([], true) := by
  intro n
  cases n <;> simp [traverse, iterator.eq, iterator.ne]

/-- Whatever the width and the platform, a traversal towards an iterator with
cursor `W`, from an iterator whose cursor `c` is at most `W`, delivers a list;
the values it reads are strictly increasing, lie from `c` on and below `W`,
and once `W - c` executions of the body are allowed for the traversal ends. -/
theorem traverse_increasing (u : Nat → Nat) (W M M' : Nat) :
    ∀ (n c : Nat), c ≤ W →
      ∃ l d, traverse u W ⟨M', W⟩ n ⟨M, c⟩ = .ok (l, d) ∧
        l.Pairwise (· < ·) ∧ (∀ x ∈ l, c ≤ x ∧ x < W) ∧
        (W - c ≤ n → d = true) := by
  intro n
  induction n with
  | zero =>
    intro c hc
    refine ⟨[], iterator.eq ⟨M, c⟩ ⟨M', W⟩, rfl, List.Pairwise.nil,
      fun x hx => absurd hx (List.not_mem_nil x), fun h => ?_⟩
    have hcW : c = W := by omega
    subst hcW
    simp [iterator.eq]
  | succ n ih =>
    intro c hc
    by_cases hcW : c = W
    · subst hcW
      exact ⟨[], true, traverse_at_end u c M M' c (n + 1), List.Pairwise.nil,
        fun x hx => absurd hx (List.not_mem_nil x), fun _ => rfl⟩
    · have hlt : c < W := lt_of_le_of_ne hc hcW
      obtain ⟨j, hj, h1, _⟩ := find_next_total u W M c
      obtain ⟨hcj, hjW⟩ := h1 hlt
      obtain ⟨l, d, ht, hp, hm, hcomp⟩ := ih j hjW
      refine ⟨c :: l, d, ?_, ?_, ?_, fun hn => hcomp (by omega)⟩
      · simp [traverse, iterator.ne, iterator.pre_inc, iterator.deref, hcW,
          hj, ht]
      · refine List.Pairwise.cons (fun x hx => ?_) hp
        have := (hm x hx).1
        omega
      · intro x hx
        rcases List.mem_cons.mp hx with hxc | hxl
        · subst hxc
          exact ⟨Nat.le_refl _, hlt⟩
        · obtain ⟨a1, a2⟩ := hm x hxl
          exact ⟨by omega, a2⟩

/-- With `T` no wider than `int`, a traversal towards an iterator with cursor
`W`, from an iterator whose cursor `c` is `W` or a set position, reads
strictly increasing set positions from `c` on, and once `W - c` executions of
the body are allowed for it ends and has read every set position from `c`
on, whatever the platform. -/
theorem traverse_spec (u : Nat → Nat) {W : Nat} (M M' : Nat)
    (hW : W ≤ intBits) :
    ∀ (n c : Nat), c ≤ W → (c < W → M.testBit c = true) →
      ∃ l d, traverse u W ⟨M', W⟩ n ⟨M, c⟩ = .ok (l, d) ∧
        l.Pairwise (· < ·) ∧
        (∀ x ∈ l, c ≤ x ∧ x < W ∧ M.testBit x = true) ∧
        (W - c ≤ n → d = true ∧
          ∀ i, c ≤ i → i < W → M.testBit i = true → i ∈ l) := by
  intro n
  induction n with
  | zero =>
    intro c hc _
    refine ⟨[], iterator.eq ⟨M, c⟩ ⟨M', W⟩, rfl, List.Pairwise.nil,
      fun x hx => absurd hx (List.not_mem_nil x), fun h => ?_⟩
    have hcW : c = W := by omega
    subst hcW
    exact ⟨by simp [iterator.eq], fun i h1 h2 => by omega⟩
  | succ n ih =>
    intro c hc hinv
    by_cases hcW : c = W
    · subst hcW
      exact ⟨[], true, traverse_at_end u c M M' c (n + 1), List.Pairwise.nil,
        fun x hx => absurd hx (List.not_mem_nil x),
        fun _ => ⟨rfl, fun i h1 h2 => by omega⟩⟩
    · have hlt : c < W := lt_of_le_of_ne hc hcW
      obtain ⟨j, hj, hcj, hjW, hjset, hleast⟩ := find_next_spec u M hW hlt
      obtain ⟨l, d, ht, hp, hm, hcomp⟩ := ih j hjW hjset
      refine ⟨c :: l, d, ?_, ?_, ?_, ?_⟩
      · simp [traverse, iterator.ne, iterator.pre_inc, iterator.deref, hcW,
          hj, ht]
      · refine List.Pairwise.cons (fun x hx => ?_) hp
        have := (hm x hx).1
        omega
      · intro x hx
        rcases List.mem_cons.mp hx with hxc | hxl
        · subst hxc
          exact ⟨Nat.le_refl _, hlt, hinv hlt⟩
        · obtain ⟨a1, a2, a3⟩ := hm x hxl
          exact ⟨by omega, a2, a3⟩
      · intro hn
        obtain ⟨hd, hall⟩ := hcomp (by omega)
        refine ⟨hd, fun i h1 h2 h3 => ?_⟩
        by_cases hic : i = c
        · rw [hic]; exact List.mem_cons_self c l
        · refine List.mem_cons_of_mem c (hall i ?_ h2 h3)
          by_contra hlt'
          have hf := hleast i (Nat.not_le.mp hlt') (by omega)
          rw [h3] at hf
          cases hf

/-- Two strictly increasing lists with the same elements are the same list. -/
theorem eq_of_increasing_of_mem {l₁ l₂ : List Nat}
    (h₁ : l₁.Pairwise (· < ·)) (h₂ : l₂.Pairwise (· < ·))
    (h : ∀ i, i ∈ l₁ ↔ i ∈ l₂) : l₁ = l₂ := by
  have hn₁ : l₁.Nodup := h₁.imp (fun hab => Nat.ne_of_lt hab)
  have hn₂ : l₂.Nodup := h₂.imp (fun hab => Nat.ne_of_lt hab)
  exact List.eq_of_perm_of_sorted ((List.perm_ext_iff_of_nodup hn₁ hn₂).mpr h)
    h₁ h₂

theorem setBitsFrom_increasing (W m s : Nat) :
    (setBitsFrom W m s).Pairwise (· < ·) :=
  List.Pairwise.filter _ (List.pairwise_lt_range W)

theorem mem_setBitsFrom {W m s i : Nat} :
    i ∈ setBitsFrom W m s ↔ s ≤ i ∧ i < W ∧ m.testBit i = true := by
  unfold setBitsFrom
  simp only [List.mem_filter, List.mem_range, Bool.and_eq_true,
    decide_eq_true_eq]
  tauto

/-- With `T` no wider than `int` (8, 16 and 32 bits) and a start offset of at
most `W`, the traversal from `begin()` to `end()` ends within `W` executions
of the loop body and reads exactly the ascending list of the set positions
from the start offset on, whatever the platform. -/
theorem produced_eq (u : Nat → Nat) {W : Nat} (m : Nat) {s n : Nat}
    (hW : W ≤ intBits) (hs : s ≤ W) (hn : W ≤ n) :
    produced u W n ⟨m, s⟩ = .ok (setBitsFrom W m s, true) := by
  obtain ⟨j, hb, hsj, hjW, hjset, hleast⟩ := begin_spec u m hW hs
  have hjset' : j < W → (toT W m).testBit j = true := fun h => by
    rw [testBit_toT m h]; exact hjset h
  obtain ⟨l, d, ht, hp, hm, hcomp⟩ :=
    traverse_spec u (toT W m) (toT W m) hW n j hjW hjset'
  obtain ⟨hd, hall⟩ := hcomp (by omega)
  have hl : l = setBitsFrom W m s := by
    refine eq_of_increasing_of_mem hp (setBitsFrom_increasing W m s)
      (fun i => ?_)
    rw [mem_setBitsFrom]
    constructor
    · intro hi
      obtain ⟨a1, a2, a3⟩ := hm i hi
      rw [testBit_toT m a2] at a3
      exact ⟨by omega, a2, a3⟩
    · rintro ⟨a1, a2, a3⟩
      refine hall i ?_ a2 (by rw [testBit_toT m a2]; exact a3)
      by_contra hlt'
      have hf := hleast i (Nat.not_le.mp hlt') a1
      rw [a3] at hf
      cases hf
  unfold produced
  simp only [hb, end_eq u W m s, ht, hd, hl]

/-- With `T` no wider than `int` and start offset 0, an index below `W` is
among the values read if and only if its bit is set in the mask. -/
theorem produced_mem (u : Nat → Nat) {W : Nat} (m : Nat) {n i : Nat}
    (hW : W ≤ intBits) (hn : W ≤ n) (hi : i < W) :
    ∃ l, produced u W n (BitmaskIterator.ctor m) = .ok (l, true) ∧
      (i ∈ l ↔ m.testBit i = true) := by
  refine ⟨setBitsFrom W m 0, produced_eq u m hW (Nat.zero_le W) hn, ?_⟩
  rw [mem_setBitsFrom]
  exact ⟨fun h => h.2.2, fun h => ⟨Nat.zero_le i, hi, h⟩⟩

/-- With `T` no wider than `int` and start offset 0, the number of values read
is the population count of the mask. -/
theorem produced_length (u : Nat → Nat) {W : Nat} (m : Nat) {n : Nat}
    (hW : W ≤ intBits) (hn : W ≤ n) :
    ∃ l, produced u W n (BitmaskIterator.ctor m) = .ok (l, true) ∧
      l.length = popcount W m := by
  refine ⟨setBitsFrom W m 0, produced_eq u m hW (Nat.zero_le W) hn, ?_⟩
  unfold setBitsFrom popcount
  simp

/-- The mask 0 sends the loop to `W`, whatever the shift yields. -/
theorem find_next_loop_zero (u : Nat → Nat) (W : Nat) :
    ∀ (fuel c : Nat), c ≤ W → W - c ≤ fuel →
      find_next_loop u W 0 fuel c = .ok W := by
  intro fuel
  induction fuel with
  | zero =>
    intro c hc hf
    have hcW : c = W := by omega
    subst hcW
    simp [find_next_loop, max_bit_eq]
  | succ fuel ih =>
    intro c hc hf
    simp only [find_next_loop, max_bit_eq]
    by_cases hlt : c < W
    · have hT : toT W (c + 1) = c + 1 := toT_of_le hlt
      rw [if_pos hlt, hT, is_bit_set_zero]
      exact ih (c + 1) hlt (by omega)
    · have hcW : c = W := by omega
      subst hcW
      rw [if_neg hlt]

/-- Every call of `find_next` on a live cursor `c` tests index `c + 1`. -/
theorem find_next_log_tests_next (u : Nat → Nat) (W m : Nat) {c : Nat}
    (hc : c < W) : c + 1 ∈ (find_next_log u W ⟨m, c⟩).1 := by
  have hT : toT W (c + 1) = c + 1 := toT_of_le hc
  unfold find_next_log
  simp only [max_bit_eq]
  cases W with
  | zero => omega
  | succ W' =>
    simp only [find_next_loop_log, max_bit_eq, if_pos hc, hT]
    split <;> simp

/-- When `begin()` is not `end()`, the first value the traversal reads is the
cursor of `begin()`. -/
theorem produced_first (u : Nat → Nat) (W m s : Nat) {b : iterator}
    (hb : BitmaskIterator.begin u W ⟨m, s⟩ = .ok b) (hne : b.m_bit ≠ W) :
    ∃ d, produced u W 1 ⟨m, s⟩ = .ok ([b.m_bit], d) := by
  obtain ⟨j, hj, _, _⟩ := find_next_total u W b.m_mask b.m_bit
  refine ⟨iterator.eq ⟨b.m_mask, j⟩ ⟨toT W m, W⟩, ?_⟩
  unfold produced
  rw [hb, end_eq u W m s]
  have hne' : iterator.ne b ⟨toT W m, W⟩ = true := by
    simp [iterator.ne, hne]
  simp only [traverse, hne', iterator.pre_inc, hj, iterator.deref, if_true]

/-! ## The scenarios of the specification, 8-bit masks -/

theorem scenario_0x13 :
    produced shl_mod32 8 8 (BitmaskIterator.ctor 0x13) =
      .ok ([0, 1, 4], true) := rfl

theorem scenario_0x00 :
    produced shl_mod32 8 8 (BitmaskIterator.ctor 0x00) = .ok ([], true) := rfl

theorem scenario_0x80 :
    produced shl_mod32 8 8 (BitmaskIterator.ctor 0x80) = .ok ([7], true) := rfl

theorem scenario_0x13_from_2 :
    produced shl_mod32 8 8 (BitmaskIterator.ctor 0x13 2) =
      .ok ([4], true) := rfl

theorem scenario_0xFF :
    produced shl_mod32 8 8 (BitmaskIterator.ctor 0xFF) =
      .ok ([0, 1, 2, 3, 4, 5, 6, 7], true) := rfl

/-! ## The claims -/

/-- C1, evaluated in the 64-bit instantiation at the mask `0x100000000`, whose
only set bit is bit 32, on every platform: the test of index 31 succeeds,
because `1 << 31` is the least `int` and is sign-extended to 64 bits, so
`begin()` is positioned at 31 and 31 is the first value the traversal reads,
although bit 31 of the mask is clear. -/
theorem uint64_begin_reads_clear_bit (u : Nat → Nat) :
    is_bit_set u 64 (2 ^ 32) 31 = true ∧
    (BitmaskIterator.ctor (2 ^ 32)).begin u 64 = .ok ⟨2 ^ 32, 31⟩ ∧
    (iterator.mk (2 ^ 32) 31).deref = 31 ∧
    (2 ^ 32).testBit 31 = false ∧
    ∃ d, produced u 64 1 (BitmaskIterator.ctor (2 ^ 32)) = .ok ([31], d) := by
  have hb : (BitmaskIterator.ctor (2 ^ 32)).begin u 64 = .ok ⟨2 ^ 32, 31⟩ :=
    ctor_indep shl_mod32 u 64 (2 ^ 32) 0
      (rfl : iterator.ctor shl_mod32 64 (2 ^ 32) 0 = .ok ⟨2 ^ 32, 31⟩)
      (by decide)
  refine ⟨(is_bit_set_indep u shl_mod32 64 (2 ^ 32) (by decide)).trans rfl,
    hb, rfl, by decide, ?_⟩
  exact produced_first u 64 (2 ^ 32) 0 hb (by decide)

/-- C2, evaluated in the 64-bit instantiation at the mask `2 ^ 40` with start
offset 3, on every platform: the ascending list of the set positions from 3
on is `[40]`, but `begin()` is positioned at 31, so the first value read is
31. -/
theorem uint64_start_offset_reads_clear_bit (u : Nat → Nat) :
    setBitsFrom 64 (2 ^ 40) 3 = [40] ∧
    (BitmaskIterator.ctor (2 ^ 40) 3).begin u 64 = .ok ⟨2 ^ 40, 31⟩ ∧
    (iterator.mk (2 ^ 40) 31).deref = 31 :=
  ⟨by decide,
    ctor_indep shl_mod32 u 64 (2 ^ 40) 3
      (rfl : iterator.ctor shl_mod32 64 (2 ^ 40) 3 = .ok ⟨2 ^ 40, 31⟩)
      (by decide),
    rfl⟩

/-- C3, as stated, fails for a start offset above `W`: the 8-bit iterator over
`0x13` started at 9 never equals `end()`, and the first three values read are
9, 9 and 9. -/
theorem start_above_width_repeats :
    produced shl_mod32 8 3 (BitmaskIterator.ctor 0x13 9) =
      .ok ([9, 9, 9], false) := rfl

/-- C3 (amended): for every width, every mask, every start offset of at most
`W` and every platform, the traversal from `begin()` to `end()` delivers a
list for every bound `n` on the executions of the loop body, the values it
reads are strictly increasing, and it ends once `n` is at least `W`. -/
theorem produced_strictly_increasing (u : Nat → Nat) (W m s n : Nat)
    (hs : s ≤ W) :
    ∃ l d, produced u W n (BitmaskIterator.ctor m s) = .ok (l, d) ∧
      l.Pairwise (· < ·) ∧ (W ≤ n → d = true) := by
  obtain ⟨j, hb, _, hjW, _⟩ := begin_bounds u W m hs
  obtain ⟨l, d, ht, hp, _, hcomp⟩ :=
    traverse_increasing u W (toT W m) (toT W m) n j hjW
  refine ⟨l, d, ?_, hp, fun hn => hcomp (by omega)⟩
  unfold produced BitmaskIterator.ctor
  simp only [hb, end_eq u W m s, ht]

theorem produced_strictly_increasing_witness :
    (∃ l d, produced shl_mod32 8 8 (BitmaskIterator.ctor 0x13 0) = .ok (l, d) ∧
      l.Pairwise (· < ·) ∧ (8 ≤ 8 → d = true)) ∧
    produced shl_mod32 8 8 (BitmaskIterator.ctor 0x13 0) =
      .ok ([0, 1, 4], true) ∧
    (∃ l d, produced shl_mod32 64 64 (BitmaskIterator.ctor 0x13 0) =
        .ok (l, d) ∧ l.Pairwise (· < ·) ∧ (64 ≤ 64 → d = true)) :=
  ⟨produced_strictly_increasing shl_mod32 8 0x13 0 8 (by decide), rfl,
    produced_strictly_increasing shl_mod32 64 0x13 0 64 (by decide)⟩

/-- C4, evaluated in the 64-bit instantiation at the mask `0x100000000`: the
population count is 1; on every platform `begin()` is at the clear bit 31 and
the advance from there tests index 32, for which `1 << 32` has no defined
result; on the common platforms the traversal reads 31 and 63, two values. -/
theorem uint64_length_not_popcount (u : Nat → Nat) :
    popcount 64 (2 ^ 32) = 1 ∧
    (BitmaskIterator.ctor (2 ^ 32)).begin u 64 = .ok ⟨2 ^ 32, 31⟩ ∧
    32 ∈ (find_next_log u 64 ⟨2 ^ 32, 31⟩).1 ∧
    shift_defined 32 = false ∧
    produced shl_mod32 64 64 (BitmaskIterator.ctor (2 ^ 32)) =
      .ok ([31, 63], true) :=
  ⟨by decide,
    ctor_indep shl_mod32 u 64 (2 ^ 32) 0
      (rfl : iterator.ctor shl_mod32 64 (2 ^ 32) 0 = .ok ⟨2 ^ 32, 31⟩)
      (by decide),
    find_next_log_tests_next u 64 (2 ^ 32) (by decide), rfl, rfl⟩

/-- C5, as stated, fails for a start offset above `W`: no bit of the 8-bit
mask `0x13` is set from index 9 on, yet `begin()` of the iterator started at 9
has cursor 9 and differs from `end()`, whose cursor is 8. -/
theorem begin_above_width_not_end :
    setBitsFrom 8 0x13 9 = [] ∧
    (BitmaskIterator.ctor 0x13 9).begin shl_mod32 8 = .ok ⟨0x13, 9⟩ ∧
    (BitmaskIterator.ctor 0x13 9).end_ shl_mod32 8 = .ok ⟨0x13, 8⟩ ∧
    iterator.eq ⟨0x13, 9⟩ ⟨0x13, 8⟩ = false :=
  ⟨by decide, rfl, rfl, rfl⟩

/-- C5 (amended): with `T` no wider than `int` (8, 16 and 32 bits) and a
start offset `s` of at most `W`, on every platform `begin()` is the iterator
whose cursor `j` is the smallest index from `s` on whose bit is set in the
mask, or `W` if there is none; it equals `end()` exactly when `j = W`; and
when bit `s` itself is set the start position is tested as set, the
constructor returns without a call of `find_next`, and the cursor is `s`. -/
theorem begin_at_first_set_bit (u : Nat → Nat) (W m s : Nat)
    (hW : W ≤ intBits) (hs : s ≤ W) :
    ∃ j, (BitmaskIterator.ctor m s).begin u W = .ok ⟨toT W m, j⟩ ∧
      IsFirstSet W m s j ∧
      ((∀ i, s ≤ i → i < W → m.testBit i = false) → j = W) ∧
      (BitmaskIterator.ctor m s).end_ u W = .ok ⟨toT W m, W⟩ ∧
      (iterator.eq ⟨toT W m, j⟩ ⟨toT W m, W⟩ = true ↔ j = W) ∧
      (s < W → m.testBit s = true →
        is_bit_set u W (toT W m) (toT W s) = true ∧ j = s) := by
  obtain ⟨j, hb, hf⟩ := begin_spec u m hW hs
  obtain ⟨hsj, hjW, hjset, hleast⟩ := hf
  refine ⟨j, hb, ⟨hsj, hjW, hjset, hleast⟩, fun hnone => ?_,
    end_eq u W m s, by simp [iterator.eq], fun hlt hbit => ⟨?_, ?_⟩⟩
  · by_contra hne
    have hlt : j < W := lt_of_le_of_ne hjW hne
    have h1 := hjset hlt
    rw [hnone j hsj hlt] at h1
    cases h1
  · rw [toT_of_le hs, is_bit_set_eq u (toT W m) hW (lt_of_lt_of_le hlt hW),
      testBit_toT m hlt, hbit]
  · by_contra hne
    have h1 := hleast s (lt_of_le_of_ne hsj (fun h => hne h.symm))
      (Nat.le_refl s)
    rw [hbit] at h1
    cases h1

theorem begin_at_first_set_bit_witness :
    (∃ j, (BitmaskIterator.ctor 0x13 1).begin shl_mod32 8 =
        .ok ⟨toT 8 0x13, j⟩ ∧
      IsFirstSet 8 0x13 1 j ∧
      ((∀ i, 1 ≤ i → i < 8 → (0x13).testBit i = false) → j = 8) ∧
      (BitmaskIterator.ctor 0x13 1).end_ shl_mod32 8 = .ok ⟨toT 8 0x13, 8⟩ ∧
      (iterator.eq ⟨toT 8 0x13, j⟩ ⟨toT 8 0x13, 8⟩ = true ↔ j = 8) ∧
      (1 < 8 → (0x13).testBit 1 = true →
        is_bit_set shl_mod32 8 (toT 8 0x13) (toT 8 1) = true ∧ j = 1)) ∧
    (0x13).testBit 1 = true ∧
    (BitmaskIterator.ctor 0x13 1).begin shl_mod32 8 = .ok ⟨0x13, 1⟩ ∧
    (∃ j, (BitmaskIterator.ctor 0x80000010 2).begin shl_mod32 32 =
        .ok ⟨toT 32 0x80000010, j⟩ ∧
      IsFirstSet 32 0x80000010 2 j ∧
      ((∀ i, 2 ≤ i → i < 32 → (0x80000010).testBit i = false) → j = 32) ∧
      (BitmaskIterator.ctor 0x80000010 2).end_ shl_mod32 32 =
        .ok ⟨toT 32 0x80000010, 32⟩ ∧
      (iterator.eq ⟨toT 32 0x80000010, j⟩ ⟨toT 32 0x80000010, 32⟩ = true ↔
        j = 32) ∧
      (2 < 32 → (0x80000010).testBit 2 = true →
        is_bit_set shl_mod32 32 (toT 32 0x80000010) (toT 32 2) = true ∧
          j = 2)) ∧
    (BitmaskIterator.ctor 0x80000010 2).begin shl_mod32 32 =
      .ok ⟨0x80000010, 4⟩ :=
  ⟨begin_at_first_set_bit shl_mod32 8 0x13 1 (by decide) (by decide),
    by decide, rfl,
    begin_at_first_set_bit shl_mod32 32 0x80000010 2 (by decide) (by decide),
    rfl⟩

/-- C6, evaluated in the 64-bit instantiation at the mask `0x100000001`
(bits 0 and 32 set), on every platform: `begin()` is at cursor 0, and the
least index above 0 whose bit is set is 32, but `operator++` stops at 31,
whose bit is clear. -/
theorem uint64_advance_stops_at_clear_bit (u : Nat → Nat) :
    (BitmaskIterator.ctor (2 ^ 32 + 1)).begin u 64 = .ok ⟨2 ^ 32 + 1, 0⟩ ∧
    IsNextSet 64 (2 ^ 32 + 1) 0 32 ∧
    iterator.pre_inc u 64 ⟨2 ^ 32 + 1, 0⟩ = .ok ⟨2 ^ 32 + 1, 31⟩ ∧
    (2 ^ 32 + 1).testBit 31 = false :=
  ⟨ctor_indep shl_mod32 u 64 (2 ^ 32 + 1) 0
      (rfl : iterator.ctor shl_mod32 64 (2 ^ 32 + 1) 0 = .ok ⟨2 ^ 32 + 1, 0⟩)
      (by decide),
    by decide,
    find_next_indep shl_mod32 u 64
      (rfl : find_next shl_mod32 64 ⟨2 ^ 32 + 1, 0⟩ = .ok ⟨2 ^ 32 + 1, 31⟩)
      (by decide),
    by decide⟩

/-- C7, as stated, fails for a start offset above `W`: with the 8-bit mask 0
and start offset 9, `begin()` has cursor 9 and differs from `end()`, whose
cursor is 8, and the traversal reads values. -/
theorem zero_mask_above_width_not_end :
    (BitmaskIterator.ctor 0 9).begin shl_mod32 8 = .ok ⟨0, 9⟩ ∧
    (BitmaskIterator.ctor 0 9).end_ shl_mod32 8 = .ok ⟨0, 8⟩ ∧
    iterator.eq ⟨0, 9⟩ ⟨0, 8⟩ = false ∧
    produced shl_mod32 8 2 (BitmaskIterator.ctor 0 9) =
      .ok ([9, 9], false) :=
  ⟨rfl, rfl, rfl, rfl⟩

/-- C7 (amended): for every width, every start offset of at most `W` and
every platform, `begin()` and `end()` of the iterator over the mask 0 are
both the iterator with cursor `W`, they compare equal, and the traversal ends
without reading a value. -/
theorem zero_mask_begin_is_end (u : Nat → Nat) (W s n : Nat) (hs : s ≤ W) :
    (BitmaskIterator.ctor 0 s).begin u W = .ok ⟨0, W⟩ ∧
    (BitmaskIterator.ctor 0 s).end_ u W = .ok ⟨0, W⟩ ∧
    iterator.eq ⟨0, W⟩ ⟨0, W⟩ = true ∧
    produced u W n (BitmaskIterator.ctor 0 s) = .ok ([], true) := by
  have h0 : toT W 0 = 0 := Nat.zero_mod _
  have hb : (BitmaskIterator.ctor 0 s).begin u W = .ok ⟨0, W⟩ := by
    unfold BitmaskIterator.begin BitmaskIterator.ctor iterator.ctor find_next
    simp only [h0, toT_of_le hs, is_bit_set_zero,
      find_next_loop_zero u W (max_bit W) s hs (by rw [max_bit_eq]; omega)]
  have he : (BitmaskIterator.ctor 0 s).end_ u W = .ok ⟨0, W⟩ := by
    have := end_eq u W 0 s
    rw [h0] at this
    exact this
  refine ⟨hb, he, by simp [iterator.eq], ?_⟩
  unfold produced
  simp only [hb, he, traverse_at_end]

theorem zero_mask_begin_is_end_witness :
    ((BitmaskIterator.ctor 0 3).begin shl_mod32 8 = .ok ⟨0, 8⟩ ∧
      (BitmaskIterator.ctor 0 3).end_ shl_mod32 8 = .ok ⟨0, 8⟩ ∧
      iterator.eq ⟨0, 8⟩ ⟨0, 8⟩ = true ∧
      produced shl_mod32 8 5 (BitmaskIterator.ctor 0 3) = .ok ([], true)) ∧
    ((BitmaskIterator.ctor 0 3).begin shl_mod32 64 = .ok ⟨0, 64⟩ ∧
      (BitmaskIterator.ctor 0 3).end_ shl_mod32 64 = .ok ⟨0, 64⟩ ∧
      iterator.eq ⟨0, 64⟩ ⟨0, 64⟩ = true ∧
      produced shl_mod32 64 5 (BitmaskIterator.ctor 0 3) = .ok ([], true)) :=
  ⟨zero_mask_begin_is_end shl_mod32 8 3 5 (by decide),
    zero_mask_begin_is_end shl_mod32 64 3 5 (by decide)⟩

/-- C8, as stated, fails for a start offset above `W`: the 8-bit iterator over
`0xFF` started at 12 has `begin()` at cursor 12, which differs from `end()`
at cursor 8, and the traversal reads the value 12 again and again. -/
theorem start_above_width_not_exhausted :
    (BitmaskIterator.ctor 0xFF 12).begin shl_mod32 8 = .ok ⟨0xFF, 12⟩ ∧
    (BitmaskIterator.ctor 0xFF 12).end_ shl_mod32 8 = .ok ⟨0xFF, 8⟩ ∧
    iterator.eq ⟨0xFF, 12⟩ ⟨0xFF, 8⟩ = false ∧
    produced shl_mod32 8 2 (BitmaskIterator.ctor 0xFF 12) =
      .ok ([12, 12], false) :=
  ⟨rfl, rfl, rfl, rfl⟩

/-- C8 (amended): for every width, every mask and every platform, the
iterator started at `W` is exhausted at once: `begin()` and `end()` are both
the iterator with cursor `W`, they compare equal, and the traversal ends
without reading a value. -/
theorem start_at_width_is_end (u : Nat → Nat) (W m n : Nat) :
    (BitmaskIterator.ctor m W).begin u W = .ok ⟨toT W m, W⟩ ∧
    (BitmaskIterator.ctor m W).end_ u W = .ok ⟨toT W m, W⟩ ∧
    iterator.eq ⟨toT W m, W⟩ ⟨toT W m, W⟩ = true ∧
    produced u W n (BitmaskIterator.ctor m W) = .ok ([], true) := by
  obtain ⟨j, hb, hWj, hjW, _⟩ := begin_bounds u W m (Nat.le_refl W)
  have hj : j = W := Nat.le_antisymm hjW hWj
  subst hj
  have he := end_eq u j m j
  refine ⟨hb, he, by simp [iterator.eq], ?_⟩
  unfold produced BitmaskIterator.ctor
  simp only [hb, he, traverse_at_end]

theorem start_at_width_is_end_witness :
    ((BitmaskIterator.ctor 0xFF 8).begin shl_mod32 8 = .ok ⟨toT 8 0xFF, 8⟩ ∧
      (BitmaskIterator.ctor 0xFF 8).end_ shl_mod32 8 = .ok ⟨toT 8 0xFF, 8⟩ ∧
      iterator.eq ⟨toT 8 0xFF, 8⟩ ⟨toT 8 0xFF, 8⟩ = true ∧
      produced shl_mod32 8 4 (BitmaskIterator.ctor 0xFF 8) = .ok ([], true)) ∧
    ((BitmaskIterator.ctor 5 32).begin shl_mod32 32 = .ok ⟨toT 32 5, 32⟩ ∧
      (BitmaskIterator.ctor 5 32).end_ shl_mod32 32 = .ok ⟨toT 32 5, 32⟩ ∧
      iterator.eq ⟨toT 32 5, 32⟩ ⟨toT 32 5, 32⟩ = true ∧
      produced shl_mod32 32 4 (BitmaskIterator.ctor 5 32) = .ok ([], true)) :=
  ⟨start_at_width_is_end shl_mod32 8 0xFF 4,
    start_at_width_is_end shl_mod32 32 5 4⟩

/-- C9: for every width `W`, mask `m` and platform, pre-increment and
post-increment of an iterator whose cursor is `W` leave the cursor at `W`
(post-increment also returns a snapshot with cursor `W`), any number `n` of
advances leaves the iterator as it was, and it compares equal to every
`end()`. -/
theorem advance_at_end_noop (u : Nat → Nat) (W m n : Nat) :
    iterator.pre_inc u W ⟨m, W⟩ = .ok ⟨m, W⟩ ∧
    iterator.post_inc u W ⟨m, W⟩ = .ok (⟨m, W⟩, ⟨m, W⟩) ∧
    advance u W n ⟨m, W⟩ = .ok ⟨m, W⟩ ∧
    (∀ (B : BitmaskIterator) (e : iterator), B.end_ u W = .ok e →
      iterator.eq ⟨m, W⟩ e = true) ∧
    ∀ B : BitmaskIterator, ∃ e, B.end_ u W = .ok e := by
  have hf := find_next_terminal u W m (Nat.le_refl W)
  refine ⟨hf, ?_, ?_, fun B e he => ?_,
    fun B => ⟨_, end_eq u W B.m_mask B.m_bit⟩⟩
  · unfold iterator.post_inc
    simp only [hf]
  · induction n with
    | zero => rfl
    | succ n ih => simp only [advance, iterator.pre_inc, hf, ih]
  · simp [iterator.eq, end_cursor he]

/-- C10: for every two iterators `a` and `b`, `a == b` holds if and only if
the cursors are equal, whatever the two masks are, and `a != b` is the
negation of `a == b`. -/
theorem eq_iff_cursor (a b : iterator) :
    (a.eq b = true ↔ a.m_bit = b.m_bit) ∧
    (∀ m₁ m₂ : Nat, iterator.eq ⟨m₁, a.m_bit⟩ ⟨m₂, b.m_bit⟩ = a.eq b) ∧
    a.ne b = !a.eq b := by
  refine ⟨by simp [iterator.eq], fun _ _ => rfl, ?_⟩
  simp [iterator.eq, iterator.ne, bne]

/-! ## The records of tested indices agree with the plain definitions -/

theorem find_next_loop_log_outcome (u : Nat → Nat) (W m : Nat) :
    ∀ fuel c : Nat,
      (find_next_loop_log u W m fuel c).2 = find_next_loop u W m fuel c := by
  intro fuel
  induction fuel with
  | zero => intro c; rfl
  | succ fuel ih =>
    intro c
    simp only [find_next_loop_log, find_next_loop]
    split
    · split <;> simp_all
    · rfl

theorem find_next_log_outcome (u : Nat → Nat) (W : Nat) (it : iterator) :
    (find_next_log u W it).2 = find_next u W it := by
  unfold find_next_log find_next
  simp only [find_next_loop_log_outcome]

theorem ctor_log_outcome (u : Nat → Nat) (W m s : Nat) :
    (iterator.ctor_log u W m s).2 = iterator.ctor u W m s := by
  unfold iterator.ctor_log iterator.ctor
  split <;> simp_all [find_next_log_outcome]

theorem advance_log_outcome (u : Nat → Nat) (W : Nat) :
    ∀ (n : Nat) (it : iterator),
      (advance_log u W n it).2 = advance u W n it := by
  intro n
  induction n with
  | zero => intro it; rfl
  | succ n ih =>
    intro it
    simp only [advance_log, advance, iterator.pre_inc, find_next_log_outcome]
    split <;> simp_all

/-! ## Frame lemmas -/

theorem find_next_mask {u : Nat → Nat} {W : Nat} {it it' : iterator}
    (h : find_next u W it = .ok it') : it'.m_mask = it.m_mask := by
  unfold find_next at h
  split at h
  · cases h
  · injection h with h
    rw [← h]

theorem advance_mask (u : Nat → Nat) (W : Nat) :
    ∀ (n : Nat) (it it' : iterator), advance u W n it = .ok it' →
      it'.m_mask = it.m_mask := by
  intro n
  induction n with
  | zero =>
    intro it it' h
    simp only [advance] at h
    injection h with h
    rw [h]
  | succ n ih =>
    intro it it' h
    simp only [advance, iterator.pre_inc] at h
    split at h
    · cases h
    · rename_i it₁ h₁
      rw [ih it₁ it' h, find_next_mask h₁]

theorem ctor_mask {u : Nat → Nat} {W m s : Nat} {it : iterator}
    (h : iterator.ctor u W m s = .ok it) : it.m_mask = toT W m := by
  unfold iterator.ctor at h
  split at h
  · injection h with h
    rw [← h]
  · exact find_next_mask h

/-- Whatever the width and the platform, `find_next` delivers an iterator
from every iterator. -/
theorem find_next_defined (u : Nat → Nat) (W : Nat) (it : iterator) :
    ∃ it', find_next u W it = .ok it' := by
  obtain ⟨j, hj, _⟩ := find_next_total u W it.m_mask it.m_bit
  exact ⟨_, hj⟩

/-- C11: for every width, every platform and every two masks and start
offsets, `end()` is the iterator with cursor `W`, `operator*` on it reads `W`,
and the two `end()` handles compare equal. -/
theorem end_is_sentinel (u : Nat → Nat) (W m₁ s₁ m₂ s₂ : Nat) :
    (BitmaskIterator.ctor m₁ s₁).end_ u W = .ok ⟨toT W m₁, W⟩ ∧
    (iterator.mk (toT W m₁) W).m_bit = W ∧
    (iterator.mk (toT W m₁) W).deref = W ∧
    (BitmaskIterator.ctor m₂ s₂).end_ u W = .ok ⟨toT W m₂, W⟩ ∧
    iterator.eq ⟨toT W m₁, W⟩ ⟨toT W m₂, W⟩ = true ∧
    iterator.ne ⟨toT W m₁, W⟩ ⟨toT W m₂, W⟩ = false :=
  ⟨end_eq u W m₁ s₁, rfl, rfl, end_eq u W m₂ s₂, by simp [iterator.eq],
    by simp [iterator.ne]⟩

/-- Whatever the width, two `end()` handles have cursor `W`, read as `W`
through `operator*`, and compare equal, whatever their masks and start
offsets. -/
theorem end_handles_equal {u : Nat → Nat} {W : Nat} {B₁ B₂ : BitmaskIterator}
    {e₁ e₂ : iterator} (h₁ : B₁.end_ u W = .ok e₁)
    (h₂ : B₂.end_ u W = .ok e₂) :
    e₁.deref = W ∧ e₂.deref = W ∧ e₁.eq e₂ = true := by
  have c₁ := end_cursor h₁
  have c₂ := end_cursor h₂
  simp [iterator.deref, iterator.eq, c₁, c₂]

/-- C12: for every width, every platform and every iterator `it`,
pre-increment is `find_next` and returns the advanced iterator; when it
delivers `it'`, post-increment returns the snapshot `it` (mask and cursor as
before the call) and leaves the iterator as `it'`; when it faults,
post-increment faults alike; and both are defined. -/
theorem post_inc_snapshot (u : Nat → Nat) (W : Nat) (it : iterator) :
    it.pre_inc u W = find_next u W it ∧
    (∀ it', it.pre_inc u W = .ok it' → it.post_inc u W = .ok (it, it')) ∧
    (∀ f, it.pre_inc u W = .error f → it.post_inc u W = .error f) ∧
    ∃ it', it.pre_inc u W = .ok it' ∧ it.post_inc u W = .ok (it, it') := by
  refine ⟨rfl, fun it' h => ?_, fun f h => ?_, ?_⟩
  · unfold iterator.pre_inc at h
    unfold iterator.post_inc
    simp only [h]
  · unfold iterator.pre_inc at h
    unfold iterator.post_inc
    simp only [h]
  · obtain ⟨it', h⟩ := find_next_defined u W it
    refine ⟨it', h, ?_⟩
    unfold iterator.post_inc
    simp only [h]

/-- C13: for every width and platform, `operator++` (pre- and
post-increment, and any number `n` of advances) leaves the stored mask of the
iterator unchanged; `begin()` and `end()` leave the mask and the start offset
of the `BitmaskIterator` unchanged and hand the mask, converted to `T`, to the
iterator; so a second call of `begin()`, also after a call of `end()`, returns
the same iterator as the first. -/
theorem mask_never_changes (u : Nat → Nat) (W n : Nat) (it : iterator)
    (B : BitmaskIterator) :
    (∀ it', it.pre_inc u W = .ok it' → it'.m_mask = it.m_mask) ∧
    (∀ r, it.post_inc u W = .ok r → r.1 = it ∧ r.2.m_mask = it.m_mask) ∧
    (∀ it', advance u W n it = .ok it' → it'.m_mask = it.m_mask) ∧
    (B.begin_call u W).2 = B ∧ (B.end_call u W).2 = B ∧
    (∀ b, (B.begin_call u W).1 = .ok b → b.m_mask = toT W B.m_mask) ∧
    (∀ e, (B.end_call u W).1 = .ok e → e.m_mask = toT W B.m_mask) ∧
    ((B.begin_call u W).2.begin_call u W).1 = (B.begin_call u W).1 ∧
    ((B.end_call u W).2.begin_call u W).1 = (B.begin_call u W).1 := by
  refine ⟨fun it' h => find_next_mask h, fun r h => ?_,
    fun it' h => advance_mask u W n it it' h, rfl, rfl,
    fun b h => ctor_mask h, fun e h => ctor_mask h, rfl, rfl⟩
  unfold iterator.post_inc at h
  split at h
  · cases h
  · rename_i it₁ h₁
    injection h with h
    rw [← h]
    exact ⟨rfl, find_next_mask h₁⟩

/-! ## The invariant of live cursors -/

theorem find_next_live (u : Nat → Nat) {W : Nat} (hW : W ≤ intBits)
    {it it' : iterator} (h : find_next u W it = .ok it')
    (hlive : it'.m_bit < W) : it'.m_mask.testBit it'.m_bit = true := by
  unfold find_next at h
  split at h
  · cases h
  · rename_i j hj
    injection h with h
    subst h
    by_cases hc : it.m_bit < W
    · exact (find_next_loop_spec u it.m_mask hW _ _ j hj hc).2.2.1 hlive
    · have := (find_next_loop_mono u W it.m_mask _ _ j hj).2 (Nat.not_lt.mp hc)
      simp only at hlive
      omega

/-- With `T` no wider than `int`, every iterator that the constructor delivers
from any mask and start offset, and every iterator reached from it by any
number of advances, has a cursor that is `W` or more or lies on a set bit of
its mask, whatever the platform. -/
theorem live_cursor_on_set_bit (u : Nat → Nat) {W : Nat} (m s : Nat)
    (hW : W ≤ intBits) :
    ∀ (n : Nat) (it₀ it : iterator), iterator.ctor u W m s = .ok it₀ →
      advance u W n it₀ = .ok it → it.m_bit < W →
      it.m_mask.testBit it.m_bit = true := by
  have hctor : ∀ it₀, iterator.ctor u W m s = .ok it₀ → it₀.m_bit < W →
      it₀.m_mask.testBit it₀.m_bit = true := by
    intro it₀ h₀ hlive
    unfold iterator.ctor at h₀
    split at h₀
    · rename_i htest
      injection h₀ with h₀
      subst h₀
      simp only at hlive ⊢
      rw [is_bit_set_eq u (toT W m) hW (lt_of_lt_of_le hlive hW)] at htest
      exact htest
    · exact find_next_live u hW h₀ hlive
  have hadv : ∀ (n : Nat) (a b : iterator),
      (a.m_bit < W → a.m_mask.testBit a.m_bit = true) →
      advance u W n a = .ok b → b.m_bit < W →
      b.m_mask.testBit b.m_bit = true := by
    intro n
    induction n with
    | zero =>
      intro a b ha h hlive
      simp only [advance] at h
      injection h with h
      subst h
      exact ha hlive
    | succ n ih =>
      intro a b _ h hlive
      simp only [advance, iterator.pre_inc] at h
      split at h
      · cases h
      · rename_i a₁ h₁
        exact ih a₁ b (fun hl => find_next_live u hW h₁ hl) h hlive
  intro n it₀ it h₀ h hlive
  exact hadv n it₀ it (hctor it₀ h₀) h hlive

theorem advance_one (u : Nat → Nat) (W : Nat) {it it' : iterator}
    (h : find_next u W it = .ok it') : advance u W 1 it = .ok it' := by
  simp only [advance, iterator.pre_inc, h]

/-- C14, evaluated in the 64-bit instantiation, on every platform: the
iterator constructed from the mask `0x100000000` and start offset 0 has the
live cursor 31 although bit 31 of the mask is clear, and the iterator
constructed from `0x100000001` is brought to the live cursor 31 by one
`operator++`. -/
theorem uint64_live_cursor_on_clear_bit (u : Nat → Nat) :
    iterator.ctor u 64 (2 ^ 32) 0 = .ok ⟨2 ^ 32, 31⟩ ∧
    (2 ^ 32).testBit 31 = false ∧
    iterator.ctor u 64 (2 ^ 32 + 1) 0 = .ok ⟨2 ^ 32 + 1, 0⟩ ∧
    advance u 64 1 ⟨2 ^ 32 + 1, 0⟩ = .ok ⟨2 ^ 32 + 1, 31⟩ ∧
    (2 ^ 32 + 1).testBit 31 = false := by
  have hf : find_next u 64 ⟨2 ^ 32 + 1, 0⟩ = .ok ⟨2 ^ 32 + 1, 31⟩ :=
    find_next_indep shl_mod32 u 64
      (rfl : find_next shl_mod32 64 ⟨2 ^ 32 + 1, 0⟩ = .ok ⟨2 ^ 32 + 1, 31⟩)
      (by decide)
  refine ⟨ctor_indep shl_mod32 u 64 (2 ^ 32) 0
      (rfl : iterator.ctor shl_mod32 64 (2 ^ 32) 0 = .ok ⟨2 ^ 32, 31⟩)
      (by decide),
    by decide,
    ctor_indep shl_mod32 u 64 (2 ^ 32 + 1) 0
      (rfl : iterator.ctor shl_mod32 64 (2 ^ 32 + 1) 0 = .ok ⟨2 ^ 32 + 1, 0⟩)
      (by decide),
    ?_, by decide⟩
  exact advance_one u 64 hf

/-! ## The indices that are tested -/

theorem find_next_loop_log_terminal (u : Nat → Nat) (W m : Nat) {c : Nat}
    (hc : W ≤ c) :
    ∀ fuel : Nat, find_next_loop_log u W m fuel c = ([], .ok c) := by
  intro fuel
  cases fuel <;> simp [find_next_loop_log, max_bit_eq, Nat.not_lt.mpr hc]

/-- Whatever the width, the mask and the platform, `operator++` from the
cursor `W - 1` tests index `W` and nothing else, and delivers cursor `W`. -/
theorem find_next_log_last (u : Nat → Nat) (W m : Nat) {c : Nat}
    (hc : c + 1 = W) : find_next_log u W ⟨m, c⟩ = ([W], .ok ⟨m, W⟩) := by
  subst hc
  have hT : toT (c + 1) (c + 1) = c + 1 := toT_of_le (Nat.le_refl _)
  unfold find_next_log
  simp only [max_bit_eq, find_next_loop_log, Nat.lt_succ_self, if_true, hT]
  cases is_bit_set u (c + 1) m (c + 1) with
  | true => rfl
  | false =>
    simp only [find_next_loop_log_terminal u (c + 1) m (Nat.le_refl _)]

/-- Whatever the width, the mask and the platform, the constructor run by
`end()` tests index `W` and nothing else, and delivers cursor `W`. -/
theorem end_ctor_log (u : Nat → Nat) (W m : Nat) :
    iterator.ctor_log u W m (max_bit W) = ([W], .ok ⟨toT W m, W⟩) := by
  unfold iterator.ctor_log find_next_log
  simp only [max_bit_eq, toT_of_le (Nat.le_refl W),
    find_next_loop_log_terminal u W (toT W m) (Nat.le_refl W)]
  cases is_bit_set u W (toT W m) W <;> rfl

/-- C15, evaluated on every platform: in the 8-bit instantiation `operator++`
from cursor 7 tests index 8, and the constructor run by `end()` tests index 8;
in the 32-bit instantiation the constructor run by `end()` tests index 32, and
so does `operator++` from cursor 31, and for index 32 the shift `1 << 32` has
no defined result. -/
theorem bit_test_applied_at_width (u : Nat → Nat) :
    find_next_log u 8 ⟨0x80, 7⟩ = ([8], .ok ⟨0x80, 8⟩) ∧
    iterator.ctor_log u 8 0x13 (max_bit 8) = ([8], .ok ⟨0x13, 8⟩) ∧
    iterator.ctor_log u 32 5 (max_bit 32) = ([32], .ok ⟨5, 32⟩) ∧
    find_next_log u 32 ⟨2 ^ 31, 31⟩ = ([32], .ok ⟨2 ^ 31, 32⟩) ∧
    shift_defined 32 = false :=
  ⟨find_next_log_last u 8 0x80 rfl, end_ctor_log u 8 0x13,
    end_ctor_log u 32 5, find_next_log_last u 32 (2 ^ 31) rfl, rfl⟩

/-- C16, evaluated in the 64-bit instantiation: on every platform the test of
index 31 of the mask `2 ^ 63` is true although bit 31 is clear, because
`1 << 31` is the least `int` and its conversion to 64 bits has the bits 31 to
63 set; for the indices 40 and 63 the shift has no defined result, and on the
common platforms the test of index 40 of the mask `2 ^ 40` is false although
bit 40 is set. -/
theorem uint64_bit_test_wrong (u : Nat → Nat) :
    shl_one u 31 = 2 ^ 31 ∧
    widen 64 (2 ^ 31) = 0xFFFFFFFF80000000 ∧
    is_bit_set u 64 (2 ^ 63) 31 = true ∧
    (2 ^ 63).testBit 31 = false ∧
    (2 ^ 63).testBit 63 = true ∧
    shift_defined 63 = false ∧
    is_bit_set shl_mod32 64 (2 ^ 63) 63 = true ∧
    shift_defined 40 = false ∧
    is_bit_set shl_mod32 64 (2 ^ 40) 40 = false ∧
    (2 ^ 40).testBit 40 = true :=
  ⟨rfl, rfl, (is_bit_set_indep u shl_mod32 64 (2 ^ 63) (by decide)).trans rfl,
    by decide, by decide, rfl, rfl, rfl, rfl, by decide⟩

/-! ## The number of iterations -/

theorem find_next_loop_log_length (u : Nat → Nat) (W m : Nat) :
    ∀ fuel c : Nat, (find_next_loop_log u W m fuel c).1.length ≤ W - c := by
  intro fuel
  induction fuel with
  | zero => intro c; simp [find_next_loop_log]
  | succ fuel ih =>
    intro c
    simp only [find_next_loop_log, max_bit_eq]
    split
    · rename_i hc
      have hT : toT W (c + 1) = c + 1 := toT_of_le hc
      rw [hT]
      split
      · simp only [List.length_singleton]; omega
      · have := ih (c + 1)
        simp only [List.length_cons]
        omega
    · simp

/-- A run of the loop from a cursor `c` of at most `W` that delivers the
cursor `j` has made exactly `j - c` iterations. -/
theorem find_next_loop_log_exact (u : Nat → Nat) (W m : Nat) :
    ∀ fuel c j : Nat, c ≤ W → (find_next_loop_log u W m fuel c).2 = .ok j →
      (find_next_loop_log u W m fuel c).1.length = j - c ∧ c ≤ j ∧ j ≤ W := by
  intro fuel
  induction fuel with
  | zero =>
    intro c j hc h
    simp only [find_next_loop_log, max_bit_eq] at h ⊢
    split at h
    · cases h
    · injection h with h
      subst h
      simp [hc]
  | succ fuel ih =>
    intro c j hc h
    simp only [find_next_loop_log, max_bit_eq] at h ⊢
    split at h
    · rename_i hlt
      have hT : toT W (c + 1) = c + 1 := toT_of_le hlt
      rw [if_pos hlt]
      rw [hT] at h ⊢
      split at h
      · rename_i ht
        injection h with h
        subst h
        simp only [ht, List.length_singleton]
        omega
      · rename_i ht
        simp only [ht, List.length_cons]
        obtain ⟨a1, a2, a3⟩ := ih (c + 1) j hlt h
        omega
    · rename_i hlt
      rw [if_neg hlt]
      injection h with h
      subst h
      simp [hc]

theorem find_next_not_outOfFuel (u : Nat → Nat) (W : Nat) (it : iterator) :
    find_next u W it ≠ .error .outOfFuel := by
  obtain ⟨it', h⟩ := find_next_defined u W it
  rw [h]
  intro hc
  cases hc

theorem find_next_log_ok {u : Nat → Nat} {W : Nat} {it it' : iterator}
    (h : (find_next_log u W it).2 = .ok it') :
    (find_next_loop_log u W it.m_mask (max_bit W) it.m_bit).2 =
        .ok it'.m_bit ∧
      (find_next_log u W it).1 =
        (find_next_loop_log u W it.m_mask (max_bit W) it.m_bit).1 := by
  unfold find_next_log at h
  simp only at h
  split at h
  · cases h
  · rename_i b hb
    injection h with h
    subst h
    exact ⟨hb, rfl⟩

/-- Any number of advances from an iterator whose cursor `c` is at most `W`
makes at most `W - c` iterations of the loop in total. -/
theorem advance_log_length (u : Nat → Nat) (W : Nat) :
    ∀ (n : Nat) (it : iterator), it.m_bit ≤ W →
      (advance_log u W n it).1.length ≤ W - it.m_bit := by
  intro n
  induction n with
  | zero => intro it _; simp [advance_log]
  | succ n ih =>
    intro it hc
    simp only [advance_log]
    split
    · exact find_next_loop_log_length u W it.m_mask (max_bit W) it.m_bit
    · rename_i it' h'
      obtain ⟨hj, hl⟩ := find_next_log_ok h'
      obtain ⟨a1, a2, a3⟩ :=
        find_next_loop_log_exact u W it.m_mask (max_bit W) it.m_bit it'.m_bit
          hc hj
      have := ih it' a3
      rw [List.length_append, hl, a1]
      omega

/-- The constructor from a start offset `s` of at most `W`, followed by any
number `n` of advances, increments the cursor at most `W - s` times. -/
theorem ctor_advance_log_length (u : Nat → Nat) (W m s n : Nat) (hs : s ≤ W) :
    (iterator.ctor_log u W m s).1.length - 1 ≤ W - s ∧
    ∀ b, iterator.ctor u W m s = .ok b →
      (iterator.ctor_log u W m s).1.length - 1 +
        (advance_log u W n b).1.length ≤ W - s := by
  have hlen := find_next_loop_log_length u W (toT W m) (max_bit W) s
  unfold iterator.ctor_log iterator.ctor
  rw [toT_of_le hs]
  cases ht : is_bit_set u W (toT W m) s with
  | true =>
    refine ⟨by simp, fun b hb => ?_⟩
    injection hb with hb
    subst hb
    have := advance_log_length u W n ⟨toT W m, s⟩ hs
    simp only [List.length_singleton] at this ⊢
    omega
  | false =>
    have hl : (find_next_log u W ⟨toT W m, s⟩).1 =
        (find_next_loop_log u W (toT W m) (max_bit W) s).1 := rfl
    refine ⟨by simp only [List.length_cons, hl]; omega, fun b hb => ?_⟩
    rw [← find_next_log_outcome] at hb
    obtain ⟨hj, _⟩ := find_next_log_ok hb
    obtain ⟨a1, a2, a3⟩ :=
      find_next_loop_log_exact u W (toT W m) (max_bit W) s b.m_bit hs hj
    have := advance_log_length u W n b a3
    simp only [List.length_cons, hl, a1]
    omega

/-- C17: for every width `W`, mask `m`, cursor `c` and platform, `find_next`
ends within the `W` iterations allowed for (it never runs out of them and
delivers an iterator); its loop body is executed at most `W - c` times, and
not at all when `c` is `W` or more; and with a start offset `s` of at most
`W`, the constructor run by `begin()` and any number `n` of `operator++`
after it increment the cursor at most `W - s` times, hence at most `W` times,
in total, while the constructor run by `end()` tests index `W` and increments
nothing. -/
theorem find_next_iterations_bounded (u : Nat → Nat) (W m c s n : Nat) :
    (find_next_log u W ⟨m, c⟩).2 = find_next u W ⟨m, c⟩ ∧
    find_next u W ⟨m, c⟩ ≠ .error .outOfFuel ∧
    (∃ it', find_next u W ⟨m, c⟩ = .ok it') ∧
    (find_next_log u W ⟨m, c⟩).1.length ≤ W - c ∧
    (W ≤ c → (find_next_log u W ⟨m, c⟩).1 = []) ∧
    (s ≤ W → ∀ b, (BitmaskIterator.ctor m s).begin u W = .ok b →
      (iterator.ctor_log u W m s).1.length - 1 +
          (advance_log u W n b).1.length ≤ W - s ∧
      (iterator.ctor_log u W m s).1.length - 1 +
          (advance_log u W n b).1.length ≤ W) ∧
    (iterator.ctor_log u W m (max_bit W)).1 = [W] := by
  have hlen : (find_next_log u W ⟨m, c⟩).1.length ≤ W - c :=
    find_next_loop_log_length u W m (max_bit W) c
  refine ⟨find_next_log_outcome u W ⟨m, c⟩,
    find_next_not_outOfFuel u W ⟨m, c⟩, find_next_defined u W ⟨m, c⟩, hlen,
    fun hc => ?_, fun hs b hb => ?_, ?_⟩
  · apply List.eq_nil_of_length_eq_zero
    omega
  · have := (ctor_advance_log_length u W m s n hs).2 b hb
    exact ⟨this, by omega⟩
  · rw [end_ctor_log u W m]

/-! ## Which bits of the mask a scan reads -/

theorem IsFirstSet_unique {W m₁ m₂ s j₁ j₂ : Nat}
    (h₁ : IsFirstSet W m₁ s j₁) (h₂ : IsFirstSet W m₂ s j₂)
    (h : ∀ i < W, s ≤ i → m₁.testBit i = m₂.testBit i) : j₁ = j₂ := by
  obtain ⟨a1, a2, a3, a4⟩ := h₁
  obtain ⟨b1, b2, b3, b4⟩ := h₂
  rcases Nat.lt_trichotomy j₁ j₂ with hlt | heq | hgt
  · have hW : j₁ < W := lt_of_lt_of_le hlt b2
    have t := a3 hW
    rw [h j₁ hW a1, b4 j₁ hlt a1] at t
    cases t
  · exact heq
  · have hW : j₂ < W := lt_of_lt_of_le hgt a2
    have t := b3 hW
    rw [← h j₂ hW b1, a4 j₂ hgt b1] at t
    cases t

theorem IsNextSet_unique {W m₁ m₂ c j₁ j₂ : Nat}
    (h₁ : IsNextSet W m₁ c j₁) (h₂ : IsNextSet W m₂ c j₂)
    (h : ∀ i < W, c < i → m₁.testBit i = m₂.testBit i) : j₁ = j₂ := by
  obtain ⟨a1, a2, a3, a4⟩ := h₁
  obtain ⟨b1, b2, b3, b4⟩ := h₂
  rcases Nat.lt_trichotomy j₁ j₂ with hlt | heq | hgt
  · have hW : j₁ < W := lt_of_lt_of_le hlt b2
    have t := a3 hW
    rw [h j₁ hW a1, b4 j₁ hlt a1] at t
    cases t
  · exact heq
  · have hW : j₂ < W := lt_of_lt_of_le hgt a2
    have t := b3 hW
    rw [← h j₂ hW b1, a4 j₂ hgt b1] at t
    cases t

/-- Whatever the width and the platform, a constructor that is given a start
offset `s` of `W` or more delivers the iterator with cursor `s`, whether the
test of index `s` is true or false. -/
theorem ctor_beyond_width (u : Nat → Nat) (W m : Nat) {s : Nat}
    (hT : s < 2 ^ W) (hs : W ≤ s) :
    iterator.ctor u W m s = .ok ⟨toT W m, s⟩ := by
  have hTs : toT W s = s := Nat.mod_eq_of_lt hT
  unfold iterator.ctor
  rw [hTs]
  cases is_bit_set u W (toT W m) s with
  | true => rfl
  | false => exact find_next_terminal u W (toT W m) hs

/-- With `T` no wider than `int` (8, 16 and 32 bits), on every platform two
masks that agree on every bit index from the start offset `s` on give
`begin()` the same cursor, and two masks that agree on every bit index above
`c` give `operator++` from cursor `c` the same cursor. -/
theorem scan_reads_only_unvisited_bits_narrow (u : Nat → Nat)
    (W m₁ m₂ s c : Nat) (hW : W ≤ intBits) (hs : s < 2 ^ W) :
    ((∀ i < W, s ≤ i → m₁.testBit i = m₂.testBit i) →
      cursorOf ((BitmaskIterator.ctor m₁ s).begin u W) =
        cursorOf ((BitmaskIterator.ctor m₂ s).begin u W)) ∧
    ((∀ i < W, c < i → m₁.testBit i = m₂.testBit i) →
      cursorOf (iterator.pre_inc u W ⟨m₁, c⟩) =
        cursorOf (iterator.pre_inc u W ⟨m₂, c⟩)) := by
  constructor
  · intro h
    by_cases hsW : s ≤ W
    · obtain ⟨j₁, hb₁, hf₁⟩ := begin_spec u m₁ hW hsW
      obtain ⟨j₂, hb₂, hf₂⟩ := begin_spec u m₂ hW hsW
      have hj := IsFirstSet_unique hf₁ hf₂ h
      unfold BitmaskIterator.ctor
      rw [hb₁, hb₂, hj]
      rfl
    · have hle : W ≤ s := Nat.le_of_lt (Nat.not_le.mp hsW)
      unfold BitmaskIterator.ctor BitmaskIterator.begin
      rw [ctor_beyond_width u W m₁ hs hle, ctor_beyond_width u W m₂ hs hle]
      rfl
  · intro h
    unfold iterator.pre_inc
    by_cases hc : c < W
    · obtain ⟨j₁, hb₁, hf₁⟩ := find_next_spec u m₁ hW hc
      obtain ⟨j₂, hb₂, hf₂⟩ := find_next_spec u m₂ hW hc
      have hj := IsNextSet_unique hf₁ hf₂ h
      rw [hb₁, hb₂, hj]
      rfl
    · rw [find_next_terminal u W m₁ (Nat.not_lt.mp hc),
        find_next_terminal u W m₂ (Nat.not_lt.mp hc)]
      rfl

/-- C18, evaluated in the 64-bit instantiation on the common platforms, at
the masks 1 and 0, which agree on every bit index from 1 on: the test of index
32 shifts an `int` by 32, which has no defined result and yields 1 there, so
it reads bit 0 of the mask; `begin()` from start offset 1 has cursor 32 over
the mask 1 and cursor 64 over the mask 0, and so has `operator++` from
cursor 1. -/
theorem uint64_scan_reads_visited_bit :
    (∀ i < 64, 1 ≤ i → (1 : Nat).testBit i = (0 : Nat).testBit i) ∧
    shift_defined 32 = false ∧
    shl_one shl_mod32 32 = 1 ∧
    is_bit_set shl_mod32 64 1 32 = true ∧
    is_bit_set shl_mod32 64 0 32 = false ∧
    cursorOf ((BitmaskIterator.ctor 1 1).begin shl_mod32 64) = .ok 32 ∧
    cursorOf ((BitmaskIterator.ctor 0 1).begin shl_mod32 64) = .ok 64 ∧
    cursorOf (iterator.pre_inc shl_mod32 64 ⟨1, 1⟩) = .ok 32 ∧
    cursorOf (iterator.pre_inc shl_mod32 64 ⟨0, 1⟩) = .ok 64 :=
  ⟨by decide, rfl, rfl, rfl, rfl, rfl, rfl, rfl, rfl⟩

/-! ## Start offsets at or beyond the width -/

theorem advance_terminal (u : Nat → Nat) (W m : Nat) {c : Nat} (hc : W ≤ c) :
    ∀ n : Nat, advance u W n ⟨m, c⟩ = .ok ⟨m, c⟩ := by
  intro n
  induction n with
  | zero => rfl
  | succ n ih =>
    simp only [advance, iterator.pre_inc, find_next_terminal u W m hc, ih]

/-- C19: for every width, every platform, every mask `m` and every start
offset `s` of `W` or more that is representable in `T`, the iterator
constructed from `(m, s)` has cursor exactly `s`, for either outcome `r` of
the bit test at `s`; every number `n` of `operator++` leaves it as it is;
and for `s` above `W` it differs from every `end()`, before and after the
advances. -/
theorem start_beyond_width_stuck (u : Nat → Nat) (W m s n : Nat)
    (hs : W ≤ s) (hT : s < 2 ^ W) :
    (BitmaskIterator.ctor m s).begin u W = .ok ⟨toT W m, s⟩ ∧
    (∀ r : Bool,
      (match r with
        | true => Except.ok (iterator.mk (toT W m) s)
        | false => find_next u W ⟨toT W m, s⟩) = .ok ⟨toT W m, s⟩) ∧
    advance u W n ⟨toT W m, s⟩ = .ok ⟨toT W m, s⟩ ∧
    (W < s → ∀ B : BitmaskIterator, ∃ e, B.end_ u W = .ok e ∧
      iterator.eq ⟨toT W m, s⟩ e = false ∧
      iterator.ne ⟨toT W m, s⟩ e = true) := by
  have hf := find_next_terminal u W (toT W m) hs
  refine ⟨ctor_beyond_width u W m hT hs, fun r => ?_,
    advance_terminal u W (toT W m) hs n, fun hlt B => ?_⟩
  · cases r
    · exact hf
    · rfl
  · refine ⟨_, end_eq u W B.m_mask B.m_bit, ?_, ?_⟩
    · simp only [iterator.eq, beq_eq_false_iff_ne, ne_eq]
      omega
    · simp only [iterator.ne, bne_iff_ne, ne_eq]
      omega

theorem start_beyond_width_stuck_witness :
    ((BitmaskIterator.ctor 0 40).begin shl_mod32 8 = .ok ⟨toT 8 0, 40⟩ ∧
      (∀ r : Bool,
        (match r with
          | true => Except.ok (iterator.mk (toT 8 0) 40)
          | false => find_next shl_mod32 8 ⟨toT 8 0, 40⟩) =
            .ok ⟨toT 8 0, 40⟩) ∧
      advance shl_mod32 8 3 ⟨toT 8 0, 40⟩ = .ok ⟨toT 8 0, 40⟩ ∧
      (8 < 40 → ∀ B : BitmaskIterator, ∃ e, B.end_ shl_mod32 8 = .ok e ∧
        iterator.eq ⟨toT 8 0, 40⟩ e = false ∧
        iterator.ne ⟨toT 8 0, 40⟩ e = true)) ∧
    (BitmaskIterator.ctor 0 40).begin shl_mod32 8 = .ok ⟨0, 40⟩ ∧
    (BitmaskIterator.ctor 0x13 9).begin shl_mod32 8 = .ok ⟨0x13, 9⟩ :=
  ⟨start_beyond_width_stuck shl_mod32 8 0 40 3 (by decide) (by decide),
    rfl, rfl⟩

/-! ## The range of the tested indices -/

/-- The loop from a cursor `c` below `W` tests indices above `c` and up to
`W`, the index `W` included when the scan gets there. -/
theorem find_next_loop_log_range (u : Nat → Nat) (W m : Nat) :
    ∀ fuel c x : Nat, x ∈ (find_next_loop_log u W m fuel c).1 →
      c < x ∧ x ≤ W := by
  intro fuel
  induction fuel with
  | zero =>
    intro c x hx
    simp [find_next_loop_log] at hx
  | succ fuel ih =>
    intro c x hx
    simp only [find_next_loop_log, max_bit_eq] at hx
    split at hx
    · rename_i hc
      have hT : toT W (c + 1) = c + 1 := toT_of_le hc
      rw [hT] at hx
      split at hx
      · simp only [List.mem_singleton] at hx
        omega
      · rcases List.mem_cons.mp hx with h | h
        · omega
        · have := ih (c + 1) x h
          omega
    · simp at hx

/-- The constructor from a start offset `s` of at most `W` tests indices from
`s` up to `W`. -/
theorem ctor_log_range (u : Nat → Nat) (W m s x : Nat) (hs : s ≤ W)
    (hx : x ∈ (iterator.ctor_log u W m s).1) : s ≤ x ∧ x ≤ W := by
  unfold iterator.ctor_log at hx
  rw [toT_of_le hs] at hx
  split at hx
  · simp only [List.mem_singleton] at hx
    omega
  · rcases List.mem_cons.mp hx with h | h
    · omega
    · have := find_next_loop_log_range u W (toT W m) (max_bit W) s x h
      omega

end BitmaskIt
